import Mathlib

/-!
Shallow embedding of the thesis-PDF structure-inference engine
(`parser_pdf.py`) and the second-stage normalizer/bucketizer
(`partition_preprocess.py`), together with theorems settling the frozen
claims about the specification.

Text is modelled as `List Char`; Python integers as `Int` (page numbers can
go negative through `- 1` adjustments); geometric coordinates as `Int`
(whole-point bounding boxes), with threshold comparisons such as
`y0 < 0.1 * ph` carried out exactly as `10 * y0 < ph`.  A Python function
that can raise is modelled with `Option` (`none` = exception).
-/

/-- Text is a list of characters (Python `str`). -/
abbrev Txt := List Char

/-! ## Character helpers -/

/-- ASCII digit test (Python `\d` on the ASCII inputs in scope). -/
def isDigitChar (c : Char) : Bool := 48 ≤ c.toNat && c.toNat ≤ 57

/-- Whitespace as matched by Python `\s` / `str.strip` on the characters in
scope: space, tab, newline, carriage return, vertical tab, form feed and
no-break space. -/
def isSpaceChar (c : Char) : Bool :=
  c = ' ' || c = '\t' || c = '\n' || c = '\r' ||
  c = '\x0b' || c = '\x0c' || c = ' '

/-- Cyrillic letter of the class `[А-Яа-яЁё]`. -/
def isCyrChar (c : Char) : Bool :=
  (0x410 ≤ c.toNat && c.toNat ≤ 0x44F) || c.toNat = 0x401 || c.toNat = 0x451

/-- Uppercase Cyrillic letter of the class `[А-ЯЁ]`. -/
def isUpperCyr (c : Char) : Bool :=
  (0x410 ≤ c.toNat && c.toNat ≤ 0x42F) || c.toNat = 0x401

/-- Uppercase Latin letter `A-Z`. -/
def isUpperLatin (c : Char) : Bool := 'A' ≤ c && c ≤ 'Z'

/-- Python `str.lower` restricted to the alphabets that occur in the
sources: ASCII `A-Z` and Cyrillic `А-Я`, `Ё`. -/
def lowerChar (c : Char) : Char :=
  if isUpperLatin c then Char.ofNat (c.toNat + 32)
  else if 0x410 ≤ c.toNat && c.toNat ≤ 0x42F then Char.ofNat (c.toNat + 32)
  else if c.toNat = 0x401 then Char.ofNat 0x451
  else c

/-- Lowercase a whole text (Python `str.lower`). -/
def lowerTxt (t : Txt) : Txt := t.map lowerChar

/-- Leading-whitespace removal (Python `str.lstrip`). -/
def stripLead (t : Txt) : Txt := t.dropWhile (fun c => isSpaceChar c)

/-- Python `str.strip`: drop whitespace from both ends. -/
def strip (t : Txt) : Txt :=
  ((t.dropWhile (fun c => isSpaceChar c)).reverse.dropWhile
    (fun c => isSpaceChar c)).reverse

/-- Membership of `needle` as a leading segment of `hay`. -/
def leadsWith : Txt → Txt → Bool
  | [], _ => true
  | _ :: _, [] => false
  | a :: as, b :: bs => a = b && leadsWith as bs

/-- Substring containment, Python `needle in hay`. -/
def hasSub (needle : Txt) : Txt → Bool
  | [] => leadsWith needle []
  | b :: bs => leadsWith needle (b :: bs) || hasSub needle bs

/-- Count of non-space characters, Python `len(s.replace(" ", ""))`.
Only the plain space character is removed, exactly as in the source. -/
def nospaceLen (t : Txt) : Nat := (t.filter (fun c => c ≠ ' ')).length

/-- Last character ends a sentence, Python `s.endswith(('.', '!', '?'))`. -/
def endsTerminal (t : Txt) : Bool :=
  match t.getLast? with
  | some c => c = '.' || c = '!' || c = '?'
  | none => false

/-- Python `s.find('.', start)`: index of the first `'.'` at position
`≥ start`, `none` for Python's `-1`. -/
def findDotFrom (t : Txt) (start : Nat) : Option Nat :=
  (List.findIdx? (fun c => c = '.') (t.drop start)).map (· + start)

/-! ## parser_pdf.py — Section Range Resolver over parsed TOC entries

A parsed TOC entry is a pair `(title, printed page number)` as produced by
`repair_content`. -/

/-- A TOC entry: title and printed page number. -/
abbrev TocEntry := Txt × Int

/-- Intro keyword list from `get_introduction_range`. -/
def intro_keywords : List Txt := ["введение".data, "вступление".data]

/-- Title contains an introduction-family keyword (after lowercasing). -/
def isIntroTitle (t : Txt) : Bool :=
  intro_keywords.any (fun kw => hasSub kw (lowerTxt t))

/-- Loop of `get_introduction_range`: scan entries from index `i` upward for
the first title containing an intro keyword; reject printed pages `≥ 10`;
the end page is the next entry's page minus 1, open (`none`) for the last
entry.  `none` models the raised `ValueError`. -/
def introAux : List TocEntry → Nat → Option (Nat × Int × Option Int × Txt)
  | [], _ => none
  | (title, page) :: rest, i =>
    if isIntroTitle title then
      if page ≥ 10 then none
      else some (i, page, (rest.head?).map (fun e => e.2 - 1), lowerTxt title)
    else introAux rest (i + 1)

/-- `get_introduction_range(entries)` from `parser_pdf.py` (lines 217-238):
returns `(index in TOC, start page, inclusive end page or open, lowercased
title)`, `none` for the raised `ValueError`. -/
def get_introduction_range (entries : List TocEntry) :
    Option (Nat × Int × Option Int × Txt) :=
  introAux entries 0

/-- Review keyword list from `get_review_range`. -/
def review_keywords : List Txt :=
  ["обзор".data, "литератур".data, "исследований".data]

/-- Excluded bibliography keyword list from `get_review_range`. -/
def not_review_keywords : List Txt := ["список литературы".data]

/-- Goal/task fallback keyword list from `get_review_range`. -/
def fallback_keywords : List Txt :=
  ["постановка".data, "задач".data, "цель".data]

/-- Nested-subsection pattern `^\s*\d+\.\d` from `get_review_range`
(`ignore_pattern`): optional whitespace, one or more digits, a dot, and one
more digit. -/
def ignoreNested (t : Txt) : Bool :=
  let s := t.dropWhile (fun c => isSpaceChar c)
  match s with
  | c :: _ =>
    if isDigitChar c then
      match s.dropWhile (fun c => isDigitChar c) with
      | '.' :: d :: _ => isDigitChar d
      | _ => false
    else false
  | [] => false

/-- Title contains a review keyword (after lowercasing). -/
def isReviewTitle (t : Txt) : Bool :=
  review_keywords.any (fun kw => hasSub kw (lowerTxt t))

/-- Title contains the excluded bibliography keyword. -/
def isNotReviewTitle (t : Txt) : Bool :=
  not_review_keywords.any (fun kw => hasSub kw (lowerTxt t))

/-- Title contains a goal/task fallback keyword. -/
def isFallbackTitle (t : Txt) : Bool :=
  fallback_keywords.any (fun kw => hasSub kw (lowerTxt t))

/-- Inner `while` loop shared by all branches of `get_review_range`: walk
forward for the next entry, stopping (`none`, Python `break`) at a missing
or empty title, skipping nested `N.M` sub-entries. -/
def findNextEntry : List TocEntry → Option TocEntry
  | [] => none
  | (t, p) :: rest =>
    if t = [] then none
    else if ignoreNested t then findNextEntry rest
    else some (t, p)

/-- Main loop of `get_review_range` (lines 260-284) over the entries after
the introduction: find a non-nested review-titled entry; its end page is the
next non-nested entry's page minus 1, clamped up to the start page; when the
inner scan finds no next entry the outer loop moves on (Python `continue`
after the `while` breaks). -/
def reviewMainAux : List TocEntry → Option (Txt × Int × Option Int)
  | [] => none
  | (title, page) :: rest =>
    if ignoreNested title then reviewMainAux rest
    else if isReviewTitle title && !isNotReviewTitle title then
      match findNextEntry rest with
      | some (_, nextPage) =>
        let endPage := nextPage - 1
        some (lowerTxt "Обзор".data, page,
          some (if endPage < page then page else endPage))
      | none => reviewMainAux rest
    else reviewMainAux rest

/-- Fallback loop of `get_review_range` (lines 289-332): a goal/task entry
selects the entry after it, any other non-nested entry selects itself; the
end page is `next_page - 1` clamped by `if end_page < next_page` — which
always fires, so the end page equals the next entry's page. -/
def reviewFallbackAux : List TocEntry → Option (Txt × Int × Option Int)
  | [] => none
  | (title, _page) :: rest =>
    if ignoreNested title then reviewFallbackAux rest
    else if isFallbackTitle title then
      match rest with
      | [] => reviewFallbackAux rest
      | (t1, p1) :: rest2 =>
        match findNextEntry rest2 with
        | some (_, nextPage) =>
          let endPage := nextPage - 1
          some (t1, p1, some (if endPage < nextPage then nextPage else endPage))
        | none => reviewFallbackAux rest
    else
      match findNextEntry rest with
      | some (_, nextPage) =>
        let endPage := nextPage - 1
        some (title, _page,
          some (if endPage < nextPage then nextPage else endPage))
      | none => reviewFallbackAux rest

/-- `get_review_range(entries)` from `parser_pdf.py` (lines 242-334):
the introduction index is resolved first (its `ValueError` propagates), then
the main review scan runs on the entries after it, then the fallback scan.
`none` models the final raised `ValueError`. -/
def get_review_range (entries : List TocEntry) : Option (Txt × Int × Option Int) :=
  match get_introduction_range entries with
  | none => none
  | some (i, _, _, _) =>
    let tail := entries.drop (i + 1)
    match reviewMainAux tail with
    | some r => some r
    | none => reviewFallbackAux tail

/-! ## Claim C1 -/

/-- TOC entry list of Example 1. -/
def entriesC1 : List TocEntry :=
  [("Введение".data, 3), ("Обзор литературы".data, 5), ("Заключение".data, 20)]

/-- C1: for the parsed TOC entry list `[("Введение", 3),
("Обзор литературы", 5), ("Заключение", 20)]`, `get_introduction_range`
yields the Introduction range `[3, 4]` (start 3, end 4) and
`get_review_range` yields the Review range `[5, 19]` (start 5, end 19). -/
theorem C1_toc_ranges :
    get_introduction_range entriesC1 = some (0, 3, some 4, "введение".data) ∧
    get_review_range entriesC1 = some ("обзор".data, 5, some 19) := by
  decide

/-! ## parser_pdf.py — Page-Number Resolver -/

/-- Raw text block from `page.get_text("blocks")` as used by
`get_real_page`: bounding box and text. -/
structure PageBlock where
  x0 : Int
  y0 : Int
  x1 : Int
  y1 : Int
  text : Txt
deriving DecidableEq

/-- Page-number candidate record built by `get_real_page`. -/
structure Cand where
  num : Int
  x0 : Int
  x1 : Int
  y0 : Int
  y1 : Int
deriving DecidableEq

/-- Python `str.splitlines` on the texts in scope (separator `'\n'`):
pieces between newlines; a trailing piece is kept only when non-empty. -/
def splitLines (t : Txt) : List Txt :=
  splitLinesGo [] t
where
  /-- Accumulate the current line (reversed) while scanning. -/
  splitLinesGo (acc : Txt) : Txt → List Txt
    | [] => if acc = [] then [] else [acc.reverse]
    | c :: rest =>
      if c = '\n' then acc.reverse :: splitLinesGo [] rest
      else splitLinesGo (c :: acc) rest

/-- Python `int(...)` on a stripped string: optional sign then one or more
ASCII digits (the only shapes that occur here). -/
def parseDigits : Txt → Option Nat
  | [] => none
  | c :: rest =>
    if (c :: rest).all (fun c => isDigitChar c) then
      some ((c :: rest).foldl (fun n c => n * 10 + (c.toNat - 48)) 0)
    else none

/-- Python `int(str)` model. -/
def parseInt : Txt → Option Int
  | [] => none
  | c :: rest =>
    if c = '-' then (parseDigits rest).map (fun n => -(n : Int))
    else if c = '+' then (parseDigits rest).map (fun n => (n : Int))
    else (parseDigits (c :: rest)).map (fun n => (n : Int))

/-- Full match of the stripped line against `\d|.\d`: a single digit, or
any character other than a newline followed by a digit. -/
def pageNumPattern : Txt → Bool
  | [c] => isDigitChar c
  | [a, c] => a ≠ '\n' && isDigitChar c
  | _ => false

/-- Digit value of a character (`int(ch)` for an ASCII digit). -/
def digitToNat (c : Char) : Nat := c.toNat - 48

/-- One line of `get_real_page` (lines 45-57): `some (some v)` produces a
candidate `v`, `some none` produces nothing (`continue` / no regex match),
`none` models the `ValueError` crash of `int()` on a non-numeric match.
Note the length test is on the RAW line (`len(ln) == 2`), while the regex
matches the STRIPPED line; `isnumeric` is modelled as the ASCII digit test
covering the characters in scope. -/
def lineCandidate (ln : Txt) : Option (Option Int) :=
  let s := strip ln
  if pageNumPattern s then
    if ln.length = 2 then
      match ln.get? 1 with
      | some c =>
        if isDigitChar c then some (some (digitToNat c : Int)) else some none
      | none => some none
    else
      match parseInt s with
      | some v => some (some v)
      | none => none
  else some none

/-- Candidates of all lines of one block, each carrying the block's
bounding box; `none` propagates the `int()` crash. -/
def blockCandidates (b : PageBlock) : List Txt → Option (List Cand)
  | [] => some []
  | ln :: rest =>
    match lineCandidate ln with
    | none => none
    | some none => blockCandidates b rest
    | some (some v) =>
      (blockCandidates b rest).map (⟨v, b.x0, b.x1, b.y0, b.y1⟩ :: ·)

/-- Candidates of a whole page's block list, in block order. -/
def pageCandidates : List PageBlock → Option (List Cand)
  | [] => some []
  | b :: rest =>
    match blockCandidates b (splitLines b.text) with
    | none => none
    | some cs =>
      match pageCandidates rest with
      | none => none
      | some cs2 => some (cs ++ cs2)

/-- `get_real_page(doc, toc_idx)` from `parser_pdf.py` (lines 31-67) for a
page given as its block list and height `ph`: collect number candidates and
keep those in the top 10% or bottom 10% of the page.  `none` models the
`int()` crash. -/
def get_real_page (blocks : List PageBlock) (ph : Int) : Option (List Cand) :=
  (pageCandidates blocks).map
    (·.filter fun c =>
      decide (10 * c.y0 < ph) || decide (10 * c.y1 > 9 * ph))
-- The filter conditions are `y0 < 0.1 * ph` and `y1 > 0.9 * ph` multiplied
-- through by 10: exact over the integer-valued boxes modelled here.

/-- Pair scan of `get_real_content_page` (lines 97-100): first TOC-page
candidate whose value differs from some next-page candidate by exactly 1. -/
def findPair : List Int → List Int → Option Int
  | [], _ => none
  | c :: rest, next =>
    if next.any (fun n => (c - n).natAbs = 1) then some c
    else findPair rest next

/-- `get_real_content_page(doc)` from `parser_pdf.py` (lines 70-105), over
the candidate values of the TOC page (`cont`) and the following page
(`next`).  The outer `Option` models crashes (`next[0]` on an empty list,
line 103); the inner `Option` is the function's own `None`-vs-number
result. -/
def get_real_content_page (cont next : List Int) : Option (Option Int) :=
  match cont with
  | [] =>
    match next with
    | [] => some none
    | n :: _ => some (some (n - 1))
  | [c] => some (some c)
  | _ :: _ :: _ =>
    match next with
    | [] => none
    | [n] => some (some (n - 1))
    | _ :: _ :: _ =>
      match findPair cont next with
      | some v => some (some v)
      | none => some none

/-! ## Claim C5 -/

/-- The first candidate of a non-empty pair scan belongs to the TOC-page
list and has a partner at distance exactly 1. -/
theorem findPair_some_spec (cont next : List Int) (c : Int)
    (h : findPair cont next = some c) :
    c ∈ cont ∧ ∃ m ∈ next, (c - m).natAbs = 1 := by
  induction cont with
  | nil => simp [findPair] at h
  | cons a rest ih =>
    by_cases ha : next.any (fun n => (a - n).natAbs = 1)
    · simp [findPair, ha] at h
      subst h
      rcases List.any_eq_true.mp ha with ⟨m, hm, hdist⟩
      exact ⟨List.mem_cons_self a rest, m, hm, of_decide_eq_true hdist⟩
    · simp [findPair, ha] at h
      rcases ih h with ⟨hc, hm⟩
      exact ⟨List.mem_cons_of_mem a hc, hm⟩

/-- If a candidate with a partner at distance 1 exists, the pair scan
returns one. -/
theorem findPair_exists (cont next : List Int)
    (h : ∃ c ∈ cont, ∃ m ∈ next, (c - m).natAbs = 1) :
    ∃ c, findPair cont next = some c := by
  induction cont with
  | nil => simp at h
  | cons a rest ih =>
    by_cases ha : next.any (fun n => (a - n).natAbs = 1)
    · exact ⟨a, by simp [findPair, ha]⟩
    · rcases h with ⟨c, hc, m, hm, hd⟩
      rcases List.mem_cons.mp hc with rfl | hc2
      · exact absurd (List.any_eq_true.mpr ⟨m, hm, decide_eq_true hd⟩) ha
      · rcases ih ⟨c, hc2, m, hm, hd⟩ with ⟨v, hv⟩
        exact ⟨v, by simp [findPair, ha, hv]⟩

/-- C5: in page-number resolution, a TOC page with zero candidates and a
following page with at least one resolves to the following page's first
candidate minus 1; when both pages have more than one candidate the
resolver returns a TOC-page candidate that differs from some next-page
candidate by exactly 1 and fails (returns Python `None`) when no such pair
exists; and candidate sets `{3}` / `{4}` resolve to 3. -/
theorem C5_page_resolution :
    (∀ (n : Int) (ns : List Int),
      get_real_content_page [] (n :: ns) = some (some (n - 1)))
    ∧ (∀ cont next : List Int, 1 < cont.length → 1 < next.length →
        ((∃ c ∈ cont, ∃ m ∈ next, (c - m).natAbs = 1) →
          ∃ c ∈ cont, get_real_content_page cont next = some (some c) ∧
            ∃ m ∈ next, (c - m).natAbs = 1)
        ∧ ((∀ c ∈ cont, ∀ m ∈ next, (c - m).natAbs ≠ 1) →
          get_real_content_page cont next = some none))
    ∧ get_real_content_page [3] [4] = some (some 3) := by
  refine ⟨fun n ns => rfl, fun cont next hc hn => ?_, by decide⟩
  match cont, next, hc, hn with
  | c1 :: c2 :: cr, n1 :: n2 :: nr, _, _ =>
    constructor
    · intro hex
      rcases findPair_exists _ _ hex with ⟨v, hv⟩
      rcases findPair_some_spec _ _ _ hv with ⟨hvmem, hvpair⟩
      exact ⟨v, hvmem, by simp [get_real_content_page, hv], hvpair⟩
    · intro hno
      have hfp : findPair (c1 :: c2 :: cr) (n1 :: n2 :: nr) = none := by
        cases hcase : findPair (c1 :: c2 :: cr) (n1 :: n2 :: nr) with
        | none => rfl
        | some v =>
          rcases findPair_some_spec _ _ _ hcase with ⟨hvmem, m, hm, hd⟩
          exact absurd hd (hno v hvmem m hm)
      simp [get_real_content_page, hfp]

/-- Witness for C5: concrete multi-candidate pages `[3, 7]` and `[9, 4]`
where the pairing rule applies. -/
theorem C5_witness :
    1 < ([3, 7] : List Int).length ∧ 1 < ([9, 4] : List Int).length ∧
    (((∃ c ∈ ([3, 7] : List Int), ∃ m ∈ ([9, 4] : List Int),
        (c - m).natAbs = 1) →
      ∃ c ∈ ([3, 7] : List Int),
        get_real_content_page [3, 7] [9, 4] = some (some c) ∧
        ∃ m ∈ ([9, 4] : List Int), (c - m).natAbs = 1)
    ∧ ((∀ c ∈ ([3, 7] : List Int), ∀ m ∈ ([9, 4] : List Int),
        (c - m).natAbs ≠ 1) →
      get_real_content_page [3, 7] [9, 4] = some none)) :=
  ⟨by decide, by decide,
    C5_page_resolution.2.1 [3, 7] [9, 4] (by decide) (by decide)⟩

/-! ## parser_pdf.py — Fallback Heading Scanner (end-page scan) -/

/-- A text span with font metadata. -/
structure Span where
  text : Txt
  font : Txt
deriving DecidableEq

/-- A typographic block: PyMuPDF `type` field and lines of spans. -/
structure HBlock where
  btype : Nat
  lines : List (List Span)
deriving DecidableEq

/-- A page is its block list. -/
abbrev HPage := List HBlock

/-- Windows-1251 value of a byte (Python `bytes.decode("cp1251")`):
identity below `0x80`, the standard table above; `none` for the undefined
byte `0x98` (dropped by `errors="ignore"`). -/
def cp1251OfByte (b : Nat) : Option Nat :=
  if b < 0x80 then some b
  else if 0xC0 ≤ b ∧ b ≤ 0xFF then some (0x410 + (b - 0xC0))
  else if b = 0x98 then none
  else
    (([0x0402, 0x0403, 0x201A, 0x0453, 0x201E, 0x2026, 0x2020, 0x2021,
       0x20AC, 0x2030, 0x0409, 0x2039, 0x040A, 0x040C, 0x040B, 0x040F,
       0x0452, 0x2018, 0x2019, 0x201C, 0x201D, 0x2022, 0x2013, 0x2014,
       0x0000, 0x2122, 0x0459, 0x203A, 0x045A, 0x045C, 0x045B, 0x045F,
       0x00A0, 0x040E, 0x045E, 0x0408, 0x00A4, 0x0490, 0x00A6, 0x00A7,
       0x0401, 0x00A9, 0x0404, 0x00AB, 0x00AC, 0x00AD, 0x00AE, 0x0407,
       0x00B0, 0x00B1, 0x0406, 0x0456, 0x0491, 0x00B5, 0x00B6, 0x00B7,
       0x0451, 0x2116, 0x0454, 0x00BB, 0x0458, 0x0405, 0x0455, 0x0457] :
      List Nat).get? (b - 0x80))

/-- Best-effort repair `raw.encode("latin-1").decode("cp1251",
errors="ignore")`: the Latin-1 encode succeeds only when every character is
below `0x100` (otherwise the exception leaves the text unchanged); the
decode maps each byte through the Windows-1251 table, dropping undefined
bytes. -/
def repairEncoding (t : Txt) : Txt :=
  if t.all (fun c => c.toNat ≤ 0xFF) then
    t.filterMap (fun c => (cp1251OfByte c.toNat).map Char.ofNat)
  else t

/-- Bold-font test from `find_section_range`: the lowercased font name
contains `"bold"` or `"f44"`. -/
def isBoldFont (font : Txt) : Bool :=
  hasSub "bold".data (lowerTxt font) || hasSub "f44".data (lowerTxt font)

/-- Word character for Python's `\b` (alphanumerics, underscore and the
Cyrillic letters in scope). -/
def isWordChar (c : Char) : Bool :=
  isDigitChar c || isUpperLatin c || ('a' ≤ c && c ≤ 'z') || c = '_' ||
  isCyrChar c

/-- The literal tail `\[а-яА-я]+\b` of the end-scan pattern: the literal
characters `[а-яА-я` then one or more `]` then a word boundary (the next
character must be a word character since `]` is not one). -/
def brokenLiteralTail (s : Txt) : Bool :=
  if leadsWith "[а-яА-я".data s then
    match s.drop 7 with
    | ']' :: rest =>
      match rest.dropWhile (fun c => c = ']') with
      | c :: _ => isWordChar c
      | [] => false
    | _ => false
  else false

/-- Consume any further digits of the current `(\.\d+)` group, then either
start the next group or hand over to the literal tail (maximal-munch
matching is exact here: no following pattern element can consume a digit
or start a group). -/
def brokenInGroup : Txt → Bool
  | [] => brokenLiteralTail []
  | c :: rest =>
    if isDigitChar c then brokenInGroup rest
    else if c = '.' then
      match rest with
      | d :: rest2 =>
        if isDigitChar d then brokenInGroup rest2
        else brokenLiteralTail (c :: rest)
      | [] => brokenLiteralTail [c]
    else brokenLiteralTail (c :: rest)

/-- Consume `(\.\d+)*` of the end-scan pattern, then require the literal
tail. -/
def brokenAfterDigits : Txt → Bool
  | '.' :: d :: rest =>
    if isDigitChar d then brokenInGroup rest
    else brokenLiteralTail ('.' :: d :: rest)
  | s => brokenLiteralTail s

/-- The end-scan pattern of `find_section_range`, compiled from the raw
string `^\s*\d+(\.\d+)*\[а-яА-я]+\b` — note that `\[` makes the bracket a
LITERAL.  Matched at the start of the span (`re.match`). -/
def brokenHeadingMatch (t : Txt) : Bool :=
  let s1 := t.dropWhile (fun c => isSpaceChar c)
  match s1 with
  | c :: _ =>
    if isDigitChar c then
      brokenAfterDigits (s1.dropWhile (fun c => isDigitChar c))
    else false
  | [] => false

/-- A span ends the section per `find_section_range`'s second loop (lines
757-791): bold font, or the (broken) numbered-heading pattern on the
encoding-repaired text. -/
def spanEndsSection (sp : Span) : Bool :=
  isBoldFont sp.font || brokenHeadingMatch (repairEncoding sp.text)

/-- A page contains a section-ending span (only `type = 0` blocks). -/
def pageHasEndHeading (page : HPage) : Bool :=
  page.any (fun b =>
    b.btype = 0 && b.lines.any (fun ln => ln.any spanEndsSection))

/-- Scan the remaining pages (starting at absolute index `k`) for the first
one that ends the section. -/
def findNextHeadingGo : List HPage → Nat → Option Nat
  | [], _ => none
  | p :: rest, k =>
    if pageHasEndHeading p then some k else findNextHeadingGo rest (k + 1)

/-- First page index `≥ k` whose content ends the section. -/
def findNextHeadingFrom (doc : List HPage) (k : Nat) : Option Nat :=
  findNextHeadingGo (doc.drop k) k

/-- End-page computation of `find_section_range` (lines 751-798) once the
start page `pageFound` is fixed: the first subsequent page with a
section-ending span, minus 1; `none` when no such page exists. -/
def find_section_end (doc : List HPage) (pageFound : Nat) : Option Int :=
  match findNextHeadingFrom doc (pageFound + 1) with
  | some n => some ((n : Int) - 1)
  | none => none

/-- Tail of the intended (documented) heading pattern: one or more
characters of the class `[а-яА-я]`. -/
def intendedCyrTail : Txt → Bool
  | c :: _ => 0x410 ≤ c.toNat && c.toNat ≤ 0x44F
  | [] => false

/-- Consume further digits of a `(\.\d+)` group of the intended pattern,
then either start the next group or hand over to the Cyrillic tail. -/
def intendedInGroup : Txt → Bool
  | [] => intendedCyrTail []
  | c :: rest =>
    if isDigitChar c then intendedInGroup rest
    else if c = '.' then
      match rest with
      | d :: rest2 =>
        if isDigitChar d then intendedInGroup rest2
        else intendedCyrTail (c :: rest)
      | [] => intendedCyrTail [c]
    else intendedCyrTail (c :: rest)

/-- Consume `(\.\d+)*` of the intended pattern, then require one or more
characters of the class `[а-яА-я]` (`0x410`-`0x44F`). -/
def intendedAfterDigits : Txt → Bool
  | '.' :: d :: rest =>
    if isDigitChar d then intendedInGroup rest
    else intendedCyrTail ('.' :: d :: rest)
  | s => intendedCyrTail s

/-- Modelled from the spec: the numbered-heading pattern the end-scan is
documented to use (its source comment describes "any new heading with a
section number at the start of the line", i.e.
`^\s*\d+(\.\d+)*[а-яА-я]+\b` with a character CLASS rather than the literal
bracket that the code actually compiles). -/
def intendedHeadingMatch (t : Txt) : Bool :=
  let s1 := t.dropWhile (fun c => isSpaceChar c)
  match s1 with
  | c :: _ =>
    if isDigitChar c then
      intendedAfterDigits (s1.dropWhile (fun c => isDigitChar c))
    else false
  | [] => false

/-! ## Claim C6 -/

/-- Two-page document: the section starts on page 0; page 1 carries the
non-bold numbered heading `2.1Обзор` and ordinary body text. -/
def docC6 : List HPage :=
  [[⟨0, [[⟨"Введение".data, "TimesNewRoman".data⟩]]⟩],
   [⟨0, [[⟨"2.1Обзор".data, "TimesNewRoman".data⟩],
         [⟨"Текст раздела.".data, "TimesNewRoman".data⟩]]⟩]]

/-- C6: the end-scan MISSES a page whose only heading is a numbered
(non-bold) heading: `2.1Обзор` satisfies the documented numbered-heading
pattern, is not bold, yet `find_section_end` returns an open end (`none`)
instead of page 1 minus 1 — the compiled pattern `\[а-яА-я]+` demands a
literal `[` character. -/
theorem C6_end_scan_eval :
    intendedHeadingMatch (repairEncoding "2.1Обзор".data) = true ∧
    isBoldFont "TimesNewRoman".data = false ∧
    brokenHeadingMatch (repairEncoding "2.1Обзор".data) = false ∧
    find_section_end docC6 0 = none := by
  decide

/-! ## Claim C10 -/

/-- A block whose only line is `" 12"` (a printed page number with a stray
leading space), sitting in the bottom 10% of a page of height 100. -/
def blockC10 : PageBlock := ⟨50, 95, 60, 100, " 12".data⟩

/-- C10 counterexample: the line `" 12"` has raw length 3, so the code
takes the `int(ln.strip())` branch and the candidate carries the FULL value
12 — not the digit value 2 of the second character, and not a value in
`[0, 9]`. -/
theorem C10_counterexample :
    get_real_page [blockC10] 100 = some [⟨12, 50, 60, 95, 100⟩] ∧
    ¬ ((12 : Int) ≤ 9) := by
  decide

/-- A stripped line of length at most 1 that matches `\d|.\d` is a single
digit. -/
theorem pattern_short_single (s : Txt) (hlen : s.length ≤ 1)
    (hpat : pageNumPattern s = true) :
    ∃ c, s = [c] ∧ isDigitChar c = true := by
  match s with
  | [] => exact absurd hpat (by decide)
  | [c] => exact ⟨c, rfl, hpat⟩
  | a :: b :: t =>
    exfalso
    simp only [List.length_cons] at hlen
    omega

/-- An ASCII digit has code point between 48 and 57. -/
theorem digit_toNat_bounds (c : Char) (hc : isDigitChar c = true) :
    48 ≤ c.toNat ∧ c.toNat ≤ 57 := by
  unfold isDigitChar at hc
  rw [Bool.and_eq_true] at hc
  exact ⟨of_decide_eq_true hc.1, of_decide_eq_true hc.2⟩

/-- The integer value of an ASCII digit lies in `[0, 9]`. -/
theorem digitVal_bounds (c : Char) (hc : isDigitChar c = true) :
    (0 : Int) ≤ ((c.toNat - 48 : Nat) : Int) ∧
      ((c.toNat - 48 : Nat) : Int) ≤ 9 := by
  rcases digit_toNat_bounds c hc with ⟨h1, h2⟩
  refine ⟨by exact_mod_cast Nat.zero_le _, ?_⟩
  have h3 : c.toNat - 48 ≤ 9 := by omega
  exact_mod_cast h3

/-- Parsing a single ASCII digit yields its value. -/
theorem parseInt_single_digit (c : Char) (hc : isDigitChar c = true) :
    parseInt [c] = some ((c.toNat - 48 : Nat) : Int) := by
  rcases digit_toNat_bounds c hc with ⟨h1, _⟩
  have hne1 : c ≠ '-' := by
    intro h
    subst h
    exact absurd h1 (by decide)
  have hne2 : c ≠ '+' := by
    intro h
    subst h
    exact absurd h1 (by decide)
  simp only [parseInt, if_neg hne1, if_neg hne2, parseDigits, hc,
    List.all_cons, List.all_nil, Bool.and_true, if_pos rfl]
  simp [List.foldl]

/-- Under the raw-length hypothesis a line never crashes and any candidate
value it contributes lies in `[0, 9]`. -/
theorem lineCandidate_bounded (ln : Txt)
    (h : ln.length = 2 ∨ (strip ln).length ≤ 1) :
    ∃ v, lineCandidate ln = some v ∧ ∀ d, v = some d → 0 ≤ d ∧ d ≤ 9 := by
  unfold lineCandidate
  by_cases hpat : pageNumPattern (strip ln) = true
  · rw [if_pos hpat]
    by_cases hlen : ln.length = 2
    · rw [if_pos hlen]
      match ln, hlen with
      | [a, c], _ =>
        by_cases hd : isDigitChar c = true
        · refine ⟨some (digitToNat c : Int), by simp [List.get?, hd], ?_⟩
          intro d hd2
          injection hd2 with hd2
          subst hd2
          exact digitVal_bounds c hd
        · exact ⟨none, by simp [List.get?, hd], fun d hd2 => by cases hd2⟩
    · rw [if_neg hlen]
      have h2 : (strip ln).length ≤ 1 := by
        rcases h with h | h
        · exact absurd h hlen
        · exact h
      rcases pattern_short_single _ h2 hpat with ⟨c0, hs, hc0⟩
      rw [hs, parseInt_single_digit c0 hc0]
      refine ⟨some ((c0.toNat - 48 : Nat) : Int), rfl, ?_⟩
      intro d hd2
      injection hd2 with hd2
      subst hd2
      exact digitVal_bounds c0 hc0
  · exact ⟨none, by rw [if_neg hpat], fun d hd => by cases hd⟩

/-- Block-level lift of `lineCandidate_bounded`. -/
theorem blockCandidates_bounded (b : PageBlock) (lns : List Txt)
    (h : ∀ ln ∈ lns, ln.length = 2 ∨ (strip ln).length ≤ 1) :
    ∃ cs, blockCandidates b lns = some cs ∧
      ∀ c ∈ cs, 0 ≤ c.num ∧ c.num ≤ 9 := by
  induction lns with
  | nil => exact ⟨[], rfl, by simp⟩
  | cons ln rest ih =>
    rcases lineCandidate_bounded ln (h ln (List.mem_cons_self ln rest)) with
      ⟨v, hv, hbound⟩
    rcases ih (fun l hl => h l (List.mem_cons_of_mem ln hl)) with
      ⟨cs, hcs, hcb⟩
    cases v with
    | none => exact ⟨cs, by simp [blockCandidates, hv, hcs], hcb⟩
    | some d =>
      refine ⟨⟨d, b.x0, b.x1, b.y0, b.y1⟩ :: cs,
        by simp [blockCandidates, hv, hcs], ?_⟩
      intro c hc
      rcases List.mem_cons.mp hc with rfl | hc2
      · exact hbound d rfl
      · exact hcb c hc2

/-- Page-level lift of `blockCandidates_bounded`. -/
theorem pageCandidates_bounded (blocks : List PageBlock)
    (h : ∀ b ∈ blocks, ∀ ln ∈ splitLines b.text,
      ln.length = 2 ∨ (strip ln).length ≤ 1) :
    ∃ cs, pageCandidates blocks = some cs ∧
      ∀ c ∈ cs, 0 ≤ c.num ∧ c.num ≤ 9 := by
  induction blocks with
  | nil => exact ⟨[], rfl, by simp⟩
  | cons b rest ih =>
    rcases blockCandidates_bounded b (splitLines b.text)
        (h b (List.mem_cons_self b rest)) with ⟨cs, hcs, hcb⟩
    rcases ih (fun b2 hb2 => h b2 (List.mem_cons_of_mem b hb2)) with
      ⟨cs2, hcs2, hcb2⟩
    refine ⟨cs ++ cs2, by simp [pageCandidates, hcs, hcs2], ?_⟩
    intro c hc
    rcases List.mem_append.mp hc with hc1 | hc2
    · exact hcb c hc1
    · exact hcb2 c hc2

/-- C10 amended: a candidate is the digit value of the line's second
character only when the RAW line is exactly two characters long; otherwise
the full stripped integer is taken (so `" 12"` contributes 12).  When every
line is either raw-length 2 or strips to at most one character, every
candidate of `get_real_page` lies within `[0, 9]`. -/
theorem C10_amended (blocks : List PageBlock) (ph : Int)
    (h : ∀ b ∈ blocks, ∀ ln ∈ splitLines b.text,
      ln.length = 2 ∨ (strip ln).length ≤ 1) :
    ∃ l, get_real_page blocks ph = some l ∧
      ∀ c ∈ l, 0 ≤ c.num ∧ c.num ≤ 9 := by
  rcases pageCandidates_bounded blocks h with ⟨cs, hcs, hcb⟩
  refine ⟨cs.filter (fun c =>
    decide (10 * c.y0 < ph) || decide (10 * c.y1 > 9 * ph)), ?_, ?_⟩
  · simp [get_real_page, hcs]
  · intro c hc
    exact hcb c (List.mem_of_mem_filter hc)

/-- Witness for C10 amended: a single-digit line `"3"` in the page footer
resolves to candidate 3. -/
theorem C10_witness :
    (∀ b ∈ [(⟨50, 95, 60, 100, "3".data⟩ : PageBlock)],
      ∀ ln ∈ splitLines b.text, ln.length = 2 ∨ (strip ln).length ≤ 1) ∧
    (∃ l, get_real_page [(⟨50, 95, 60, 100, "3".data⟩ : PageBlock)] 100 =
        some l ∧ ∀ c ∈ l, 0 ≤ c.num ∧ c.num ≤ 9) :=
  ⟨by decide, C10_amended [⟨50, 95, 60, 100, "3".data⟩] 100 (by decide)⟩

/-! ## Claim C4 -/

/-- Error characterization of the introduction scan, for any start index:
`none` exactly when no entry matches or the first matching entry's page is
`≥ 10`. -/
theorem introAux_none_iff (entries : List TocEntry) (k : Nat) :
    introAux entries k = none ↔
      (∀ e ∈ entries, isIntroTitle e.1 = false) ∨
      (∃ pre e suf, entries = pre ++ e :: suf ∧
        (∀ x ∈ pre, isIntroTitle x.1 = false) ∧ isIntroTitle e.1 = true ∧
        (10 : Int) ≤ e.2) := by
  induction entries generalizing k with
  | nil => simp [introAux]
  | cons a rest ih =>
    obtain ⟨t, pg⟩ := a
    by_cases hm : isIntroTitle t = true
    · by_cases hp : pg ≥ 10
      · have hstep : introAux ((t, pg) :: rest) k = none := by
          simp only [introAux]
          rw [if_pos hm, if_pos hp]
        rw [hstep]
        constructor
        · intro _
          exact Or.inr ⟨[], (t, pg), rest, rfl, by simp, hm, hp⟩
        · intro _
          rfl
      · have hstep : introAux ((t, pg) :: rest) k =
            some (k, pg, (rest.head?).map (fun e => e.2 - 1), lowerTxt t) := by
          simp only [introAux]
          rw [if_pos hm, if_neg hp]
        rw [hstep]
        constructor
        · intro hcontra
          cases hcontra
        · intro hrhs
          rcases hrhs with hall | ⟨pre, e, suf, heq, hpre, hme, hpe⟩
          · exact absurd hm (by simp [hall (t, pg) (List.mem_cons_self _ _)])
          · cases pre with
            | nil =>
              simp only [List.nil_append, List.cons.injEq] at heq
              rw [← heq.1] at hpe
              exact absurd hpe (by omega)
            | cons a2 pre2 =>
              simp only [List.cons_append, List.cons.injEq] at heq
              have hfalse := hpre a2 (List.mem_cons_self _ _)
              rw [← heq.1] at hfalse
              simp only at hfalse
              rw [hfalse] at hm
              cases hm
    · have hstep : introAux ((t, pg) :: rest) k = introAux rest (k + 1) := by
        simp only [introAux]
        rw [if_neg hm]
      rw [hstep, ih (k + 1)]
      constructor
      · intro hrhs
        rcases hrhs with hall | ⟨pre, e, suf, heq, hpre, hme, hpe⟩
        · refine Or.inl ?_
          intro x hx
          rcases List.mem_cons.mp hx with rfl | hx2
          · simpa using hm
          · exact hall x hx2
        · refine Or.inr ⟨(t, pg) :: pre, e, suf, by rw [heq, List.cons_append],
            ?_, hme, hpe⟩
          intro x hx
          rcases List.mem_cons.mp hx with rfl | hx2
          · simpa using hm
          · exact hpre x hx2
      · intro hrhs
        rcases hrhs with hall | ⟨pre, e, suf, heq, hpre, hme, hpe⟩
        · exact Or.inl fun x hx => hall x (List.mem_cons_of_mem _ hx)
        · cases pre with
          | nil =>
            simp only [List.nil_append, List.cons.injEq] at heq
            rw [← heq.1] at hme
            simp only at hme
            exact absurd hme hm
          | cons a2 pre2 =>
            simp only [List.cons_append, List.cons.injEq] at heq
            exact Or.inr ⟨pre2, e, suf, heq.2,
              fun x hx => hpre x (List.mem_cons_of_mem _ hx), hme, hpe⟩

/-- Success characterization of the introduction scan: the result describes
the first matching entry, whose page is below 10. -/
theorem introAux_some_spec (entries : List TocEntry) (k : Nat)
    (i : Nat) (p : Int) (ep : Option Int) (tl : Txt)
    (h : introAux entries k = some (i, p, ep, tl)) :
    ∃ pre e suf, entries = pre ++ e :: suf ∧ pre.length + k = i ∧
      (∀ x ∈ pre, isIntroTitle x.1 = false) ∧ isIntroTitle e.1 = true ∧
      p = e.2 ∧ p < 10 ∧
      ep = (suf.head?).map (fun e2 => e2.2 - 1) := by
  induction entries generalizing k with
  | nil => simp [introAux] at h
  | cons a rest ih =>
    obtain ⟨t, pg⟩ := a
    by_cases hm : isIntroTitle t = true
    · by_cases hp : pg ≥ 10
      · have hstep : introAux ((t, pg) :: rest) k = none := by
          simp only [introAux]
          rw [if_pos hm, if_pos hp]
        rw [hstep] at h
        cases h
      · have hstep : introAux ((t, pg) :: rest) k =
            some (k, pg, (rest.head?).map (fun e => e.2 - 1), lowerTxt t) := by
          simp only [introAux]
          rw [if_pos hm, if_neg hp]
        rw [hstep] at h
        simp only [Option.some.injEq, Prod.mk.injEq] at h
        obtain ⟨h1, h2, h3, h4⟩ := h
        exact ⟨[], (t, pg), rest, rfl, by simpa using h1, by simp, hm,
          h2.symm, by omega, h3.symm⟩
    · have hstep : introAux ((t, pg) :: rest) k = introAux rest (k + 1) := by
        simp only [introAux]
        rw [if_neg hm]
      rw [hstep] at h
      rcases ih (k + 1) h with ⟨pre, e, suf, heq, hlen, hpre, hme, hpe,
        hlt, hep⟩
      refine ⟨(t, pg) :: pre, e, suf, by rw [heq, List.cons_append],
        by simp only [List.length_cons]; omega, ?_, hme, hpe, hlt, hep⟩
      intro x hx
      rcases List.mem_cons.mp hx with rfl | hx2
      · simpa using hm
      · exact hpre x hx2

/-- C4: `get_introduction_range` selects the first entry whose lowercased
title contains an introduction keyword; it raises exactly when no entry
matches or the first matching entry's printed page is `≥ 10`; on success
the returned start page is that entry's printed page. -/
theorem C4_intro_spec (entries : List TocEntry) :
    (get_introduction_range entries = none ↔
      (∀ e ∈ entries, isIntroTitle e.1 = false) ∨
      (∃ pre e suf, entries = pre ++ e :: suf ∧
        (∀ x ∈ pre, isIntroTitle x.1 = false) ∧ isIntroTitle e.1 = true ∧
        (10 : Int) ≤ e.2))
    ∧ (∀ i p ep tl, get_introduction_range entries = some (i, p, ep, tl) →
      ∃ pre e suf, entries = pre ++ e :: suf ∧ pre.length = i ∧
        (∀ x ∈ pre, isIntroTitle x.1 = false) ∧ isIntroTitle e.1 = true ∧
        p = e.2 ∧ p < 10) := by
  constructor
  · exact introAux_none_iff entries 0
  · intro i p ep tl h
    rcases introAux_some_spec entries 0 i p ep tl h with
      ⟨pre, e, suf, heq, hlen, hpre, hme, hpe, hlt, _⟩
    exact ⟨pre, e, suf, heq, by omega, hpre, hme, hpe, hlt⟩

/-- Witness for C4: an intro entry with printed page 12 makes resolution
fail. -/
theorem C4_witness :
    get_introduction_range [("Тест".data, 2), ("Введение".data, 12)] =
      none :=
  (C4_intro_spec [("Тест".data, 2), ("Введение".data, 12)]).1.mpr
    (Or.inr ⟨[("Тест".data, 2)], ("Введение".data, 12), [], rfl,
      by decide, by decide, by decide⟩)

/-! ## Claim C3 -/

/-- Printed pages of the entry list are strictly increasing (the shape of a
well-formed TOC). -/
def pagesIncreasing : List TocEntry → Bool
  | [] => true
  | [_] => true
  | a :: b :: rest => decide (a.2 < b.2) && pagesIncreasing (b :: rest)

/-- The tail of an increasing list is increasing. -/
theorem pagesIncreasing_tail (a : TocEntry) (rest : List TocEntry)
    (h : pagesIncreasing (a :: rest) = true) : pagesIncreasing rest = true := by
  cases rest with
  | nil => rfl
  | cons b rest2 =>
    simp only [pagesIncreasing, Bool.and_eq_true] at h
    exact h.2

/-- An increasing list is pairwise increasing. -/
theorem pagesIncreasing_pairwise (l : List TocEntry)
    (h : pagesIncreasing l = true) :
    List.Pairwise (fun a b : TocEntry => a.2 < b.2) l := by
  induction l with
  | nil => exact List.Pairwise.nil
  | cons a rest ih =>
    have htail := ih (pagesIncreasing_tail a rest h)
    cases rest with
    | nil => simp
    | cons b rest2 =>
      simp only [pagesIncreasing, Bool.and_eq_true, decide_eq_true_eq] at h
      refine List.pairwise_cons.mpr ⟨?_, htail⟩
      intro x hx
      rcases List.mem_cons.mp hx with rfl | hx2
      · exact h.1
      · have hb := (List.pairwise_cons.mp htail).1 x hx2
        exact lt_trans h.1 hb

/-- C3 counterexample: on the unsorted TOC entry list
`[("Введение", 3), ("Х", 1)]` the Introduction resolver returns the range
`[3, 0]` with `start_page > end_page`. -/
theorem C3_counterexample :
    get_introduction_range [("Введение".data, 3), ("Х".data, 1)] =
      some (0, 3, some 0, "введение".data) ∧ ¬ ((3 : Int) ≤ 0) := by
  decide

/-- Under increasing pages the introduction range satisfies start ≤ end. -/
theorem introAux_start_le_end (entries : List TocEntry) (k : Nat)
    (hmono : pagesIncreasing entries = true)
    (i : Nat) (p e : Int) (tl : Txt)
    (h : introAux entries k = some (i, p, some e, tl)) : p ≤ e := by
  induction entries generalizing k with
  | nil => simp [introAux] at h
  | cons a rest ih =>
    obtain ⟨t, pg⟩ := a
    by_cases hm : isIntroTitle t = true
    · by_cases hp : pg ≥ 10
      · have hstep : introAux ((t, pg) :: rest) k = none := by
          simp only [introAux]
          rw [if_pos hm, if_pos hp]
        rw [hstep] at h
        cases h
      · have hstep : introAux ((t, pg) :: rest) k =
            some (k, pg, (rest.head?).map (fun e2 => e2.2 - 1), lowerTxt t) := by
          simp only [introAux]
          rw [if_pos hm, if_neg hp]
        rw [hstep] at h
        simp only [Option.some.injEq, Prod.mk.injEq] at h
        obtain ⟨h1, h2, h3, h4⟩ := h
        cases rest with
        | nil => simp at h3
        | cons b rest2 =>
          simp only [List.head?_cons, Option.map_some'] at h3
          simp only [pagesIncreasing, Bool.and_eq_true,
            decide_eq_true_eq] at hmono
          injection h3 with h3
          omega
    · have hstep : introAux ((t, pg) :: rest) k = introAux rest (k + 1) := by
        simp only [introAux]
        rw [if_neg hm]
      rw [hstep] at h
      exact ih (k + 1) (pagesIncreasing_tail _ _ hmono) h

/-- The entry found by the forward scan belongs to the scanned list. -/
theorem findNextEntry_mem (l : List TocEntry) (e : TocEntry)
    (h : findNextEntry l = some e) : e ∈ l := by
  induction l with
  | nil => cases h
  | cons a rest ih =>
    obtain ⟨t, p⟩ := a
    by_cases ht : t = []
    · rw [show findNextEntry ((t, p) :: rest) = none from by
        simp only [findNextEntry]; rw [if_pos ht]] at h
      cases h
    · by_cases hig : ignoreNested t = true
      · rw [show findNextEntry ((t, p) :: rest) = findNextEntry rest from by
          simp only [findNextEntry]; rw [if_neg ht, if_pos hig]] at h
        exact List.mem_cons_of_mem _ (ih h)
      · rw [show findNextEntry ((t, p) :: rest) = some (t, p) from by
          simp only [findNextEntry]; rw [if_neg ht, if_neg hig]] at h
        injection h with h
        rw [← h]
        exact List.mem_cons_self _ _

/-- The main review branch always clamps the end page up to the start
page, so start ≤ end holds there unconditionally. -/
theorem reviewMainAux_start_le_end (l : List TocEntry) (tl : Txt)
    (p e : Int) (h : reviewMainAux l = some (tl, p, some e)) : p ≤ e := by
  induction l with
  | nil => cases h
  | cons a rest ih =>
    obtain ⟨t, pg⟩ := a
    by_cases hig : ignoreNested t = true
    · rw [show reviewMainAux ((t, pg) :: rest) = reviewMainAux rest from by
        simp only [reviewMainAux]; rw [if_pos hig]] at h
      exact ih h
    · by_cases hr : (isReviewTitle t && !isNotReviewTitle t) = true
      · cases hfe : findNextEntry rest with
        | some b =>
          obtain ⟨t2, np⟩ := b
          rw [show reviewMainAux ((t, pg) :: rest) =
              some (lowerTxt "Обзор".data, pg,
                some (if np - 1 < pg then pg else np - 1)) from by
            simp only [reviewMainAux]
            rw [if_neg hig, if_pos hr, hfe]] at h
          simp only [Option.some.injEq, Prod.mk.injEq] at h
          obtain ⟨h1, h2, h3⟩ := h
          rw [← h2, ← h3]
          by_cases hcl : np - 1 < pg
          · rw [if_pos hcl]
          · rw [if_neg hcl]
            omega
        | none =>
          rw [show reviewMainAux ((t, pg) :: rest) = reviewMainAux rest from by
            simp only [reviewMainAux]
            rw [if_neg hig, if_pos hr, hfe]] at h
          exact ih h
      · rw [show reviewMainAux ((t, pg) :: rest) = reviewMainAux rest from by
          simp only [reviewMainAux]; rw [if_neg hig, if_neg hr]] at h
        exact ih h

/-- Under increasing pages the fallback review branches satisfy
start ≤ end: the chosen end page is the page of a strictly later entry. -/
theorem reviewFallbackAux_start_le_end (l : List TocEntry)
    (hmono : List.Pairwise (fun a b : TocEntry => a.2 < b.2) l)
    (tl : Txt) (p e : Int)
    (h : reviewFallbackAux l = some (tl, p, some e)) : p ≤ e := by
  induction l with
  | nil => cases h
  | cons a rest ih =>
    obtain ⟨t, pg⟩ := a
    have hpair := List.pairwise_cons.mp hmono
    by_cases hig : ignoreNested t = true
    · rw [show reviewFallbackAux ((t, pg) :: rest) =
          reviewFallbackAux rest from by
        simp only [reviewFallbackAux]; rw [if_pos hig]] at h
      exact ih hpair.2 h
    · by_cases hf : isFallbackTitle t = true
      · cases rest with
        | nil =>
          rw [show reviewFallbackAux [(t, pg)] = reviewFallbackAux [] from by
            simp only [reviewFallbackAux]; rw [if_neg hig, if_pos hf]] at h
          cases h
        | cons b rest2 =>
          obtain ⟨t1, p1⟩ := b
          cases hfe : findNextEntry rest2 with
          | some c2 =>
            obtain ⟨t2, np⟩ := c2
            rw [show reviewFallbackAux ((t, pg) :: (t1, p1) :: rest2) =
                some (t1, p1,
                  some (if np - 1 < np then np else np - 1)) from by
              simp only [reviewFallbackAux]
              rw [if_neg hig, if_pos hf, hfe]] at h
            simp only [Option.some.injEq, Prod.mk.injEq] at h
            obtain ⟨h1, h2, h3⟩ := h
            have hmem := findNextEntry_mem rest2 (t2, np) hfe
            have hlt : p1 < np :=
              (List.pairwise_cons.mp hpair.2).1 (t2, np)
                (by exact hmem)
            rw [← h2, ← h3, if_pos (by omega : np - 1 < np)]
            omega
          | none =>
            rw [show reviewFallbackAux ((t, pg) :: (t1, p1) :: rest2) =
                reviewFallbackAux ((t1, p1) :: rest2) from by
              simp only [reviewFallbackAux]
              rw [if_neg hig, if_pos hf, hfe]] at h
            exact ih hpair.2 h
      · cases hfe : findNextEntry rest with
        | some c2 =>
          obtain ⟨t2, np⟩ := c2
          rw [show reviewFallbackAux ((t, pg) :: rest) =
              some (t, pg, some (if np - 1 < np then np else np - 1)) from by
            simp only [reviewFallbackAux]
            rw [if_neg hig, if_neg hf, hfe]] at h
          simp only [Option.some.injEq, Prod.mk.injEq] at h
          obtain ⟨h1, h2, h3⟩ := h
          have hmem := findNextEntry_mem rest (t2, np) hfe
          have hlt : pg < np := hpair.1 (t2, np) hmem
          rw [← h2, ← h3, if_pos (by omega : np - 1 < np)]
          omega
        | none =>
          rw [show reviewFallbackAux ((t, pg) :: rest) =
              reviewFallbackAux rest from by
            simp only [reviewFallbackAux]
            rw [if_neg hig, if_neg hf, hfe]] at h
          exact ih hpair.2 h

/-- Increasing pages survive `List.drop`. -/
theorem pagesIncreasing_drop (l : List TocEntry) (n : Nat)
    (h : pagesIncreasing l = true) : pagesIncreasing (l.drop n) = true := by
  induction n generalizing l with
  | zero => exact h
  | succ m ih =>
    cases l with
    | nil => rfl
    | cons a rest =>
      rw [List.drop_succ_cons]
      exact ih rest (pagesIncreasing_tail a rest h)

/-- C3 amended: on a TOC entry list whose printed pages are strictly
increasing, every resolved section range (Introduction, and Review through
its main and fallback branches) satisfies start ≤ end; without that
ordering the invariant fails (see the counterexample). -/
theorem C3_amended (entries : List TocEntry)
    (hmono : pagesIncreasing entries = true) :
    (∀ i p ep tl, get_introduction_range entries = some (i, p, ep, tl) →
      ∀ e, ep = some e → p ≤ e) ∧
    (∀ tl p ep, get_review_range entries = some (tl, p, ep) →
      ∀ e, ep = some e → p ≤ e) := by
  constructor
  · intro i p ep tl h e hep
    subst hep
    exact introAux_start_le_end entries 0 hmono i p e tl h
  · intro tl p ep h e hep
    subst hep
    unfold get_review_range at h
    cases hintro : get_introduction_range entries with
    | none => rw [hintro] at h; cases h
    | some r =>
      obtain ⟨j, r2⟩ := r
      rw [hintro] at h
      simp only at h
      cases hmain : reviewMainAux (entries.drop (j + 1)) with
      | some rm =>
        rw [hmain] at h
        injection h with h
        obtain ⟨tm, pm, em⟩ := rm
        simp only [Prod.mk.injEq] at h
        obtain ⟨h1, h2, h3⟩ := h
        subst h1
        subst h2
        subst h3
        exact reviewMainAux_start_le_end _ _ _ _ hmain
      | none =>
        rw [hmain] at h
        exact reviewFallbackAux_start_le_end _
          (pagesIncreasing_pairwise _
            (pagesIncreasing_drop entries (j + 1) hmono)) _ _ _ h

/-- Witness for C3 amended: the increasing entry list of Example 1. -/
theorem C3_witness :
    pagesIncreasing entriesC1 = true ∧
    ((∀ i p ep tl, get_introduction_range entriesC1 = some (i, p, ep, tl) →
        ∀ e, ep = some e → p ≤ e) ∧
     (∀ tl p ep, get_review_range entriesC1 = some (tl, p, ep) →
        ∀ e, ep = some e → p ≤ e)) :=
  ⟨by decide, C3_amended entriesC1 (by decide)⟩

/-! ## partition_preprocess.py — constants -/

/-- Minimum non-space paragraph size (`MIN_BLOCK_LEN`). -/
def MIN_BLOCK_LEN : Nat := 600

/-- Maximum non-space paragraph size (`MAX_BLOCK_LEN`). -/
def MAX_BLOCK_LEN : Nat := 900

/-- Oversized-sentence threshold (`LARGE_BLOCK_LEN`). -/
def LARGE_BLOCK_LEN : Nat := 1200

/-- Minimum words per sentence (`MIN_SENT_WORDS`). -/
def MIN_SENT_WORDS : Nat := 3

/-- Minimum surviving paragraphs per section (`MIN_PARAGRAPH_COUNT`). -/
def MIN_PARAGRAPH_COUNT : Nat := 2

/-- Minimum non-space size of a trailing paragraph (`MIN_TRAILING_LEN`). -/
def MIN_TRAILING_LEN : Nat := 200

/-! ## partition_preprocess.py — clean_raw_text -/

/-- Python `text.replace('-\n', '')`: left-to-right non-overlapping
removal. -/
def removeHyphenNL : Txt → Txt
  | '-' :: '\n' :: rest => removeHyphenNL rest
  | c :: rest => c :: removeHyphenNL rest
  | [] => []

/-- Replace each maximal run of characters satisfying `p` by a single
`rep` (model of `re.sub(p+, rep, text)` for a character class `p`). -/
def collapseRunsGo (p : Char → Bool) (rep : Char) (inRun : Bool) :
    Txt → Txt
  | [] => []
  | c :: rest =>
    if p c then
      if inRun then collapseRunsGo p rep true rest
      else rep :: collapseRunsGo p rep true rest
    else c :: collapseRunsGo p rep false rest

/-- `clean_raw_text(text)` from `partition_preprocess.py` (lines 39-61):
remove `-\n`, map newlines/tabs/no-break spaces to spaces, collapse
whitespace runs (`\s+` then `\x20{2,}`), strip. -/
def clean_raw_text (text : Txt) : Txt :=
  let t1 := removeHyphenNL text
  let t2 := t1.map (fun c => if c = '\n' then ' ' else c)
  let t3 := t2.map (fun c => if c = '\t' then ' ' else if c = ' ' then ' ' else c)
  let t4 := collapseRunsGo (fun c => isSpaceChar c) ' ' false t3
  let t5 := collapseRunsGo (fun c => c = ' ') ' ' false t4
  strip t5

/-! ## partition_preprocess.py — remove_artifacts -/

/-- Unicode NFC normalization (`unicodedata.normalize('NFC', text)`),
modelled as the identity: the texts in scope are precomposed, on which NFC
is the identity. -/
def normalize_unicode (text : Txt) : Txt := text

/-- Match `\d+(-\d+)?` (a citation number or number range); returns the
remainder on success. -/
def refNum (s : Txt) : Option Txt :=
  match s with
  | c :: _ =>
    if isDigitChar c then
      let s1 := s.dropWhile (fun c => isDigitChar c)
      match s1 with
      | '-' :: d :: rest2 =>
        if isDigitChar d then
          some ((d :: rest2).dropWhile (fun c => isDigitChar c))
        else some s1
      | _ => some s1
    else none
  | [] => none

/-- Match `(?:,\s*\d+(-\d+)?)*` greedily; the fuel bounds the number of
groups and cannot run out (each group consumes at least two characters). -/
def refGroups : Nat → Txt → Txt
  | 0, s => s
  | fuel + 1, s =>
    match s with
    | ',' :: rest =>
      match refNum (rest.dropWhile (fun c => isSpaceChar c)) with
      | some r2 => refGroups fuel r2
      | none => s
    | _ => s

/-- Match the body of `RE_REFERENCES` after the opening `[`; returns the
remainder after the closing `]`. -/
def refsMatch (s : Txt) : Option Txt :=
  match refNum s with
  | none => none
  | some r1 =>
    match refGroups r1.length r1 with
    | ']' :: rest => some rest
    | _ => none

/-- One pass of `RE_REFERENCES.sub('', text)`; the fuel bounds the number
of scan steps (each consumes at least one character) and cannot run out. -/
def refsRemoveF : Nat → Txt → Txt
  | 0, t => t
  | fuel + 1, t =>
    match t with
    | [] => []
    | '[' :: rest =>
      match refsMatch rest with
      | some rest2 => refsRemoveF fuel rest2
      | none => '[' :: refsRemoveF fuel rest
    | c :: rest => c :: refsRemoveF fuel rest

/-- `RE_REFERENCES.sub('', text)`: strip bracketed citation markers. -/
def removeReferences (t : Txt) : Txt := refsRemoveF (t.length + 1) t

/-- Tail `\s+` of the numbered-heading pattern `RE_HEADING_NUM`. -/
def headNumTail : Txt → Bool
  | c :: _ => isSpaceChar c
  | [] => false

/-- Consume further digits of a `(\.\d+)` group of `RE_HEADING_NUM`, then
either start the next group or require the whitespace tail. -/
def headNumInGroup : Txt → Bool
  | [] => false
  | c :: rest =>
    if isDigitChar c then headNumInGroup rest
    else if c = '.' then
      match rest with
      | d :: rest2 =>
        if isDigitChar d then headNumInGroup rest2
        else headNumTail (c :: rest)
      | [] => headNumTail [c]
    else headNumTail (c :: rest)

/-- `RE_HEADING_NUM` = `^\s*\d+(\.\d+)*\s+` matched at the start. -/
def headingNumMatch (t : Txt) : Bool :=
  let s1 := t.dropWhile (fun c => isSpaceChar c)
  match s1 with
  | c :: _ =>
    if isDigitChar c then
      headNumInGroup (s1.dropWhile (fun c => isDigitChar c))
    else false
  | [] => false

/-- `RE_HEADING_WORD` = `^[\sA-ZА-ЯЁ]{2,}$` (applied to stripped text). -/
def headingWordMatch (t : Txt) : Bool :=
  decide (t.length ≥ 2) && t.all (fun c =>
    isSpaceChar c || isUpperLatin c ||
    (0x410 ≤ c.toNat && c.toNat ≤ 0x42F) || c.toNat = 0x401)

/-- Punctuation class of `RE_SPACE_PUNCT` (`[,;:.!?]`). -/
def isPunctCh (c : Char) : Bool :=
  c = ',' || c = ';' || c = ':' || c = '.' || c = '!' || c = '?'

/-- `RE_SPACE_PUNCT.sub(r'\1 \2', text)`: insert a space after punctuation
followed by a non-space; scanning resumes after the matched pair. -/
def spacePunct : Txt → Txt
  | c :: d :: rest =>
    if isPunctCh c && !isSpaceChar d then c :: ' ' :: d :: spacePunct rest
    else c :: spacePunct (d :: rest)
  | s => s

/-- One pass of `RE_MULTI_DOTS.sub('...', text)` (`\.{4,}` → `...`); the
fuel bounds scan steps and cannot run out. -/
def multiDotsF : Nat → Txt → Txt
  | 0, s => s
  | fuel + 1, s =>
    match s with
    | [] => []
    | '.' :: rest =>
      let run := 1 + (rest.takeWhile (fun c => c = '.')).length
      let rest2 := rest.dropWhile (fun c => c = '.')
      if run ≥ 4 then '.' :: '.' :: '.' :: multiDotsF fuel rest2
      else ('.' :: rest.takeWhile (fun c => c = '.')) ++ multiDotsF fuel rest2
    | c :: rest => c :: multiDotsF fuel rest

/-- `RE_MULTI_DOTS.sub('...', text)`: squeeze runs of 4+ dots. -/
def multiDots (t : Txt) : Txt := multiDotsF (t.length + 1) t

/-- `remove_artifacts(text)` from `partition_preprocess.py` (lines 64-91):
NFC-normalize, strip citation markers, drop numeric or all-caps headings,
space after punctuation, squeeze dot runs, blank control characters
(`RE_CONTROL_CHARS` = `[\u0000-\u001F\u007F-\u009F]`), strip. -/
def remove_artifacts (text : Txt) : Txt :=
  let t1 := normalize_unicode text
  let t2 := removeReferences t1
  if headingNumMatch t2 || headingWordMatch (strip t2) then []
  else
    let t3 := spacePunct t2
    let t4 := multiDots t3
    let t5 := t4.map (fun c =>
      if c.toNat ≤ 0x1F || (0x7F ≤ c.toNat && c.toNat ≤ 0x9F) then ' '
      else c)
    strip t5

/-! ## partition_preprocess.py — sentence splitting and filtering -/

/-- Terminal punctuation characters. -/
def isTermCh (c : Char) : Bool := c = '.' || c = '!' || c = '?'

/-- Models the external `razdel.sentenize` segmenter composed with the
per-sentence `strip` of `split_to_sentences`: the text is cut after
terminal punctuation that is followed by a space (or ends the text), and
each piece is stripped; all-whitespace pieces do not occur. -/
def sentenizeGo (acc : Txt) : Txt → List Txt
  | [] => if strip acc.reverse = [] then [] else [strip acc.reverse]
  | c :: rest =>
    if isTermCh c &&
        (match rest with
         | [] => true
         | ' ' :: _ => true
         | _ => false) then
      strip (c :: acc).reverse :: sentenizeGo [] rest
    else sentenizeGo (c :: acc) rest

/-- `split_to_sentences(text)` (lines 124-128). -/
def split_to_sentences (t : Txt) : List Txt := sentenizeGo [] t

/-- Count of whitespace-separated words, Python `len(s.split())`. -/
def wordCountGo (inWord : Bool) : Txt → Nat
  | [] => 0
  | c :: rest =>
    if isSpaceChar c then wordCountGo false rest
    else (if inWord then 0 else 1) + wordCountGo true rest

/-- `sentence_filters(sent)` from `partition_preprocess.py` (lines
94-121): non-empty, at least `MIN_SENT_WORDS` words, non-Cyrillic share at
most 0.6 (checked exactly as `nonCyr * 5 > total * 3` — the constant
`MAX_NON_CYRILLIC` 0.6 of the source written as the exact rational 3/5),
and an uppercase Cyrillic first letter. -/
def sentence_filters (sent : Txt) : Bool :=
  if strip sent = [] then false
  else if wordCountGo false sent < MIN_SENT_WORDS then false
  else if decide (0 < sent.length) &&
      decide (((sent.filter (fun c => !isCyrChar c)).length) * 5 >
        sent.length * 3) then false
  else
    match strip sent with
    | c :: _ => isUpperCyr c
    | [] => false

/-! ## partition_preprocess.py — clean_and_filter_block -/

/-- Search for `(\.\s*){7,}`: seven or more dots separated only by
whitespace.  The counter tracks the length of the current dot chain. -/
def dotRunGo (cnt : Nat) : Txt → Bool
  | [] => false
  | c :: rest =>
    if c = '.' then
      if cnt + 1 ≥ 7 then true else dotRunGo (cnt + 1) rest
    else if isSpaceChar c then dotRunGo cnt rest
    else dotRunGo 0 rest

/-- Dot-leader detection of `clean_and_filter_block` (line 146). -/
def hasDotRun (t : Txt) : Bool := dotRunGo 0 t

/-- Drop consecutive duplicates (lines 163-168): `prev` is updated at
every step, an element is kept when it differs from its predecessor. -/
def dedupGo (prev : Option Txt) : List Txt → List Txt
  | [] => []
  | s :: rest =>
    if some s = prev then dedupGo (some s) rest
    else s :: dedupGo (some s) rest

/-- `clean_and_filter_block(block, is_last)` from `partition_preprocess.py`
(lines 131-169): clean, reject dot-leader or digit-heavy remnants (digit
share above 0.7 checked exactly as `digits * 10 > length * 7`), sentenize,
filter, drop the final sentence of a truncated last block, deduplicate. -/
def clean_and_filter_block (block : Txt) (is_last : Bool) : List Txt :=
  let txt := remove_artifacts (clean_raw_text block)
  if txt = [] then []
  else if hasDotRun txt then []
  else if decide (((txt.filter (fun c => isDigitChar c)).length) * 10 >
      txt.length * 7) then []
  else
    let sents := split_to_sentences txt
    let filtered := sents.filter (fun s => sentence_filters s)
    let filtered2 :=
      if is_last && !(strip block = []) && !endsTerminal (strip block) then
        filtered.dropLast
      else filtered
    dedupGo none filtered2

/-! ## partition_preprocess.py — handle_lists and split_paragraphs -/

/-- `RE_LIST_MARKER` = `^\s*([-•]|\d+\.)\s*`: on a match, return the text
after the marker (the result of `RE_LIST_MARKER.sub('', s)`). -/
def markerRest (s : Txt) : Option Txt :=
  let s1 := s.dropWhile (fun c => isSpaceChar c)
  match s1 with
  | '-' :: r => some (r.dropWhile (fun c => isSpaceChar c))
  | '•' :: r => some (r.dropWhile (fun c => isSpaceChar c))
  | c :: _ =>
    if isDigitChar c then
      match s1.dropWhile (fun c => isDigitChar c) with
      | '.' :: r => some (r.dropWhile (fun c => isSpaceChar c))
      | _ => none
    else none
  | [] => none

/-- Python `" ".join(items)`. -/
def joinSp (items : List Txt) : Txt := List.intercalate [' '] items

/-- Close a collected list group (lines 190-213 of `handle_lists`): merge
with the popped previous paragraph, discard a short group with no
predecessor, split an oversized group at the first period past the
midpoint. -/
def finalizeGroup (acc : List Txt) (items : List Txt) : List Txt :=
  let prevOpt := acc.getLast?
  let accPopped := if prevOpt.isSome then acc.dropLast else acc
  let group :=
    match prevOpt with
    | some prev => prev ++ ' ' :: joinSp items
    | none => joinSp items
  let ns := nospaceLen group
  if accPopped = [] && decide (ns < 300) then accPopped
  else if decide (ns > 800) then
    match findDotFrom group (group.length / 2) with
    | some cut =>
      accPopped ++ [strip (group.take (cut + 1)), strip (group.drop (cut + 1))]
    | none => accPopped ++ [group]
  else accPopped ++ [group]

/-- Main loop of `handle_lists` (lines 179-217): non-marker sentences pass
through; a run of marker sentences is collected (`pending`) and closed by
`finalizeGroup` at the first non-marker sentence or at the end. -/
def handleGo (acc : List Txt) (pending : Option (List Txt)) :
    List Txt → List Txt
  | [] =>
    match pending with
    | none => acc
    | some items => finalizeGroup acc items
  | s :: rest =>
    match pending with
    | none =>
      match markerRest s with
      | none => handleGo (acc ++ [s]) none rest
      | some r => handleGo acc (some [strip r]) rest
    | some items =>
      match markerRest s with
      | some r => handleGo acc (some (items ++ [strip r])) rest
      | none => handleGo (finalizeGroup acc items ++ [s]) none rest

/-- `handle_lists(sentences)` from `partition_preprocess.py` (lines
172-217). -/
def handle_lists (sentences : List Txt) : List Txt :=
  handleGo [] none sentences

/-- Accumulation loop of `split_paragraphs` (lines 228-271): an oversized
sentence is split at the first period past its midpoint (at the midpoint
itself when no period exists) after flushing the buffer; otherwise the
buffer accumulates while at most `MAX_BLOCK_LEN`, flushing when it reaches
`MIN_BLOCK_LEN` and ends in terminal punctuation, or early when the next
sentence would overflow. -/
def split_paragraphs_go (paras : List Txt) (buf : Txt) (bufN : Nat) :
    List Txt → List Txt
  | [] => if buf = [] then paras else paras ++ [buf]
  | s :: rest =>
    let slen := nospaceLen s
    if slen > LARGE_BLOCK_LEN then
      let cut :=
        match findDotFrom s (s.length / 2) with
        | some c => c
        | none => s.length / 2
      let part1 := strip (s.take (cut + 1))
      let part2 := strip (s.drop (cut + 1))
      let paras1 := if buf = [] then paras else paras ++ [buf]
      let paras2 := paras1 ++ (if part1 = [] then [] else [part1]) ++
        (if part2 = [] then [] else [part2])
      split_paragraphs_go paras2 [] 0 rest
    else if bufN + slen ≤ MAX_BLOCK_LEN then
      let buf2 := if buf = [] then s else strip (buf ++ ' ' :: s)
      let bufN2 := bufN + slen
      if bufN2 ≥ MIN_BLOCK_LEN ∧ endsTerminal buf2 = true then
        split_paragraphs_go (paras ++ [buf2]) [] 0 rest
      else split_paragraphs_go paras buf2 bufN2 rest
    else
      let paras1 := if buf = [] then paras else paras ++ [buf]
      split_paragraphs_go paras1 s slen rest

/-- `split_paragraphs(sentences)` from `partition_preprocess.py` (lines
220-271). -/
def split_paragraphs (sentences : List Txt) : List Txt :=
  split_paragraphs_go [] [] 0 sentences

/-! ## partition_preprocess.py — per-section processing of process_file -/

/-- Sentence stream of one section (lines 315-320 of `process_file`): the
cleaned sentences of every raw block, concatenated, with `is_last` set on
the final block. -/
def section_sents (blocks : List Txt) : List Txt :=
  (blocks.enum.map (fun pr =>
    clean_and_filter_block pr.2 (pr.1 == blocks.length - 1))).flatten

/-- The second-stage pipeline applied to one section's raw blocks:
`clean_and_filter_block` over each block, then `handle_lists`, then
`split_paragraphs` (lines 315-323 of `process_file`). -/
def normalize_pipeline (blocks : List Txt) : List Txt :=
  split_paragraphs (handle_lists (section_sents blocks))

/-- Trailing-paragraph trimming (lines 326-327): pop paragraphs shorter
than `MIN_TRAILING_LEN` non-space characters from the end — written as a
`dropWhile` on the reversed list, which performs the same pops. -/
def trim_trailing (paras : List Txt) : List Txt :=
  (paras.reverse.dropWhile (fun p =>
    decide (nospaceLen p < MIN_TRAILING_LEN))).reverse

/-- Section loop of `process_file` (lines 312-330) over the raw block
lists of the document's sections: each section is cleaned, bucketed and
trimmed; `none` models the early `return` (no output file written) when a
section keeps fewer than `MIN_PARAGRAPH_COUNT` paragraphs. -/
def process_sections : List (List Txt) → Option (List (List Txt))
  | [] => some []
  | blocks :: rest =>
    let paras := trim_trailing (normalize_pipeline blocks)
    if paras.length < MIN_PARAGRAPH_COUNT then none
    else
      match process_sections rest with
      | some out => some (paras :: out)
      | none => none

/-! ## Claim C2 -/

/-- Sentence of 600 non-space characters ending in a period. -/
def csA : Txt := List.replicate 599 'a' ++ ['.']

/-- Sentence of 500 non-space characters ending in a period. -/
def csB : Txt := List.replicate 499 'b' ++ ['.']

/-- Another sentence of 500 non-space characters ending in a period. -/
def csC : Txt := List.replicate 499 'c' ++ ['.']

set_option maxRecDepth 100000 in
/-- C2 counterexample: on the sentence list `[csA, csB, csC]` the
bucketizer emits the three sentences as three separate paragraphs — `csA`
flushes at 600, then `csB` (500 non-space characters, below the 600
minimum) is flushed early because adding `csC` would exceed 900 — so the
middle paragraph of the section violates the claimed `[600, 900]` window.
-/
theorem C2_counterexample :
    split_paragraphs [csA, csB, csC] = [csA, csB, csC] ∧
    nospaceLen csB = 500 ∧ ¬ (MIN_BLOCK_LEN ≤ nospaceLen csB) := by
  decide

/-- Non-space length distributes over append. -/
theorem nospaceLen_append (a b : Txt) :
    nospaceLen (a ++ b) = nospaceLen a + nospaceLen b := by
  simp [nospaceLen, List.filter_append]

/-- Non-space length is invariant under reversal. -/
theorem nospaceLen_reverse (l : Txt) :
    nospaceLen l.reverse = nospaceLen l := by
  simp [nospaceLen, List.filter_reverse]

/-- Dropping a prefix cannot increase the non-space length. -/
theorem nospaceLen_dropWhile_le (p : Char → Bool) (l : Txt) :
    nospaceLen (l.dropWhile p) ≤ nospaceLen l := by
  induction l with
  | nil => simp [List.dropWhile]
  | cons a as ih =>
    by_cases h : p a = true
    · rw [List.dropWhile_cons_of_pos h]
      refine le_trans ih ?_
      simp only [nospaceLen, List.filter_cons]
      by_cases ha : a = ' ' <;> simp [ha]
    · rw [List.dropWhile_cons_of_neg h]

/-- Stripping cannot increase the non-space length. -/
theorem nospaceLen_strip_le (t : Txt) :
    nospaceLen (strip t) ≤ nospaceLen t := by
  unfold strip
  rw [nospaceLen_reverse]
  refine le_trans (nospaceLen_dropWhile_le _ _) ?_
  rw [nospaceLen_reverse]
  exact nospaceLen_dropWhile_le _ _

/-- A leading space does not count. -/
theorem nospaceLen_space_cons (s : Txt) :
    nospaceLen (' ' :: s) = nospaceLen s := by
  simp [nospaceLen, List.filter_cons]

/-- Buffer invariant of the accumulation loop: when every remaining
sentence fits in `MAX_BLOCK_LEN` non-space characters, every emitted
paragraph fits as well. -/
theorem split_paragraphs_go_bounded (l : List Txt) :
    ∀ (paras : List Txt) (buf : Txt) (bufN : Nat),
    (∀ s ∈ l, nospaceLen s ≤ MAX_BLOCK_LEN) →
    (∀ p ∈ paras, nospaceLen p ≤ MAX_BLOCK_LEN) →
    nospaceLen buf ≤ bufN → bufN ≤ MAX_BLOCK_LEN →
    ∀ p ∈ split_paragraphs_go paras buf bufN l,
      nospaceLen p ≤ MAX_BLOCK_LEN := by
  induction l with
  | nil =>
    intro paras buf bufN _ hparas hbuf hbufN p hp
    simp only [split_paragraphs_go] at hp
    by_cases hb : buf = []
    · rw [if_pos hb] at hp
      exact hparas p hp
    · rw [if_neg hb] at hp
      rcases List.mem_append.mp hp with h | h
      · exact hparas p h
      · simp only [List.mem_singleton] at h
        subst h
        omega
  | cons s rest ih =>
    intro paras buf bufN hl hparas hbuf hbufN p hp
    have hs := hl s (List.mem_cons_self s rest)
    have hrest : ∀ x ∈ rest, nospaceLen x ≤ MAX_BLOCK_LEN :=
      fun x hx => hl x (List.mem_cons_of_mem s hx)
    simp only [split_paragraphs_go] at hp
    have hlarge : ¬ (nospaceLen s > LARGE_BLOCK_LEN) := by
      simp only [MAX_BLOCK_LEN] at hs
      simp only [LARGE_BLOCK_LEN]
      omega
    rw [if_neg hlarge] at hp
    by_cases hfit : bufN + nospaceLen s ≤ MAX_BLOCK_LEN
    · rw [if_pos hfit] at hp
      have hbuf2 : nospaceLen (if buf = [] then s
          else strip (buf ++ ' ' :: s)) ≤ bufN + nospaceLen s := by
        by_cases hb : buf = []
        · rw [if_pos hb]
          omega
        · rw [if_neg hb]
          refine le_trans (nospaceLen_strip_le _) ?_
          rw [nospaceLen_append, nospaceLen_space_cons]
          omega
      by_cases hflush : bufN + nospaceLen s ≥ MIN_BLOCK_LEN ∧
          endsTerminal (if buf = [] then s else strip (buf ++ ' ' :: s)) =
            true
      · rw [if_pos hflush] at hp
        refine ih (paras ++ [_]) [] 0 hrest ?_ (by simp [nospaceLen])
          (by simp [MAX_BLOCK_LEN]) p hp
        intro q hq
        rcases List.mem_append.mp hq with h | h
        · exact hparas q h
        · simp only [List.mem_singleton] at h
          subst h
          omega
      · rw [if_neg hflush] at hp
        exact ih paras _ (bufN + nospaceLen s) hrest hparas hbuf2 hfit p hp
    · rw [if_neg hfit] at hp
      have hparas1 : ∀ q ∈ (if buf = [] then paras else paras ++ [buf]),
          nospaceLen q ≤ MAX_BLOCK_LEN := by
        by_cases hb : buf = []
        · rw [if_pos hb]
          exact hparas
        · rw [if_neg hb]
          intro q hq
          rcases List.mem_append.mp hq with h | h
          · exact hparas q h
          · simp only [List.mem_singleton] at h
            subst h
            omega
      exact ih _ s (nospaceLen s) hrest hparas1 (le_refl _) hs p hp

/-- C2 amended: if every input sentence has at most `MAX_BLOCK_LEN` (900)
non-space characters, then every paragraph produced by `split_paragraphs`
has at most 900 non-space characters (hence none exceeds 1200).  The lower
bound 600 holds only for paragraphs flushed by the minimum-size rule:
a buffer flushed early because the next sentence would overflow can leave
a middle paragraph below 600 (see the counterexample). -/
theorem C2_amended (sentences : List Txt)
    (h : ∀ s ∈ sentences, nospaceLen s ≤ MAX_BLOCK_LEN) :
    ∀ p ∈ split_paragraphs sentences, nospaceLen p ≤ MAX_BLOCK_LEN := by
  unfold split_paragraphs
  exact split_paragraphs_go_bounded sentences [] [] 0 h (by simp)
    (by simp [nospaceLen]) (by simp [MAX_BLOCK_LEN])

/-- Witness for C2 amended: two short sentences. -/
theorem C2_witness :
    (∀ s ∈ ["Привет мир добрый.".data, "Хороший мир вышел.".data],
      nospaceLen s ≤ MAX_BLOCK_LEN) ∧
    (∀ p ∈ split_paragraphs
        ["Привет мир добрый.".data, "Хороший мир вышел.".data],
      nospaceLen p ≤ MAX_BLOCK_LEN) :=
  ⟨by decide, C2_amended _ (by decide)⟩

/-! ## Claim C7 -/

/-- A clean one-sentence block. -/
def blockC7 : Txt := "Привет мир добрый.".data

/-- C7 counterexample: a section made of two identical raw blocks yields a
cleaned sentence stream with two consecutive character-identical
sentences — per-block deduplicated lists are concatenated, so duplicates
across block boundaries survive. -/
theorem C7_counterexample :
    (section_sents [blockC7, blockC7]).length = 2 ∧
    (section_sents [blockC7, blockC7]).getD 0 [] =
      (section_sents [blockC7, blockC7]).getD 1 [] := by
  decide

/-- The dedup loop emits no two consecutive equal elements, and its first
element differs from the incoming `prev`. -/
theorem dedupGo_chain (l : List Txt) :
    ∀ prev : Option Txt,
    List.Chain' (fun a b : Txt => a ≠ b) (dedupGo prev l) ∧
    (∀ x, (dedupGo prev l).head? = some x → some x ≠ prev) := by
  induction l with
  | nil => intro prev; simp [dedupGo]
  | cons s rest ih =>
    intro prev
    by_cases h : some s = prev
    · rw [show dedupGo prev (s :: rest) = dedupGo (some s) rest from by
        simp [dedupGo, h]]
      rcases ih (some s) with ⟨hc, hh⟩
      refine ⟨hc, ?_⟩
      intro x hx
      rw [← h]
      exact hh x hx
    · rw [show dedupGo prev (s :: rest) = s :: dedupGo (some s) rest from by
        simp [dedupGo, h]]
      rcases ih (some s) with ⟨hc, hh⟩
      constructor
      · rw [List.chain'_cons']
        refine ⟨?_, hc⟩
        intro y hy hcon
        exact hh y hy (by rw [hcon])
      · intro x hx
        simp only [List.head?_cons, Option.some.injEq] at hx
        subst hx
        exact h

/-- The cleaned output of a block is the empty list or a dedup-loop
output. -/
theorem cafb_shape (block : Txt) (is_last : Bool) :
    clean_and_filter_block block is_last = [] ∨
    ∃ l, clean_and_filter_block block is_last = dedupGo none l := by
  simp only [clean_and_filter_block]
  split
  · exact Or.inl rfl
  · split
    · exact Or.inl rfl
    · split
      · exact Or.inl rfl
      · split
        · exact Or.inr ⟨_, rfl⟩
        · exact Or.inr ⟨_, rfl⟩

/-- C7 amended: WITHIN one raw block's cleaned output no two consecutive
sentences are character-identical; across block boundaries the per-block
results are concatenated without further deduplication, so duplicates can
survive there. -/
theorem C7_amended (block : Txt) (is_last : Bool) :
    List.Chain' (fun a b : Txt => a ≠ b)
      (clean_and_filter_block block is_last) := by
  rcases cafb_shape block is_last with h | ⟨l, h⟩
  · rw [h]
    exact List.chain'_nil
  · rw [h]
    exact (dedupGo_chain l none).1

/-! ## Claim C8 -/

/-- A single oversized "sentence" (1201 non-space characters, no period):
an uppercase Cyrillic letter followed by 120 ten-letter Cyrillic words. -/
def gBig : Txt := 'Я' :: (List.replicate 120 (' ' :: "абвгдежзик".data)).flatten

/-- A short clean closing sentence. -/
def sSmall : Txt := "Это мировой тест.".data

set_option maxRecDepth 400000 in
/-- C8 counterexample: the pipeline is NOT idempotent on its own output.
On `[gBig, sSmall]` the first pass midpoint-splits the oversized sentence
into two halves and emits three paragraphs; the second half starts with a
lowercase letter, so the second pass filters it out and merges the
remainder into a single paragraph — `pipeline (pipeline X) ≠ pipeline X`. -/
theorem C8_counterexample :
    normalize_pipeline (normalize_pipeline [gBig, sSmall]) ≠
      normalize_pipeline [gBig, sSmall] := by
  decide

/-- Flattened cleaned blocks reproduce the block list when every block
cleans to exactly itself (whatever its `is_last` flag). -/
theorem section_sents_fix_aux (L : Nat) : ∀ (bs : List Txt),
    (∀ p ∈ bs, ∀ b : Bool, clean_and_filter_block p b = [p]) →
    ∀ n : Nat, ((bs.enumFrom n).map (fun pr =>
      clean_and_filter_block pr.2 (pr.1 == L))).flatten = bs := by
  intro bs
  induction bs with
  | nil => intro _ n; rfl
  | cons p rest ih =>
    intro h n
    rw [List.enumFrom_cons]
    simp only [List.map_cons, List.flatten_cons]
    rw [h p (List.mem_cons_self p rest) (n == L),
      ih (fun x hx b => h x (List.mem_cons_of_mem p hx) b) (n + 1)]
    rfl

/-- The section sentence stream of a fixed-point paragraph list is the
list itself. -/
theorem section_sents_fix (blocks : List Txt)
    (h : ∀ p ∈ blocks, ∀ b : Bool, clean_and_filter_block p b = [p]) :
    section_sents blocks = blocks := by
  unfold section_sents
  rw [List.enum_eq_enumFrom]
  exact section_sents_fix_aux (blocks.length - 1) blocks h 0

/-- Without list markers, `handle_lists` only copies its input. -/
theorem handleGo_no_marker : ∀ (l : List Txt),
    (∀ p ∈ l, markerRest p = none) →
    ∀ acc, handleGo acc none l = acc ++ l := by
  intro l
  induction l with
  | nil => intro _ acc; simp [handleGo]
  | cons s rest ih =>
    intro h acc
    rw [show handleGo acc none (s :: rest) = handleGo (acc ++ [s]) none rest
      from by simp [handleGo, h s (List.mem_cons_self s rest)]]
    rw [ih (fun x hx => h x (List.mem_cons_of_mem s hx)) (acc ++ [s])]
    simp

/-- A stream of sentences that each sit inside `[600, 900]` non-space
characters and end in terminal punctuation is re-bucketed into exactly
those sentences, one paragraph each. -/
theorem split_paragraphs_go_id : ∀ (l : List Txt),
    (∀ p ∈ l, MIN_BLOCK_LEN ≤ nospaceLen p ∧
      nospaceLen p ≤ MAX_BLOCK_LEN ∧ endsTerminal p = true) →
    ∀ paras, split_paragraphs_go paras [] 0 l = paras ++ l := by
  intro l
  induction l with
  | nil => intro _ paras; simp [split_paragraphs_go]
  | cons s rest ih =>
    intro h paras
    have hs := h s (List.mem_cons_self s rest)
    have hrest := fun x hx => h x (List.mem_cons_of_mem s hx)
    simp only [split_paragraphs_go]
    rw [if_neg (show ¬ (nospaceLen s > LARGE_BLOCK_LEN) from by
      have h2 := hs.2.1
      simp only [MAX_BLOCK_LEN] at h2
      simp only [LARGE_BLOCK_LEN]
      omega)]
    rw [if_pos (show 0 + nospaceLen s ≤ MAX_BLOCK_LEN from by
      have h2 := hs.2.1
      omega)]
    simp only [if_true]
    rw [if_pos (show 0 + nospaceLen s ≥ MIN_BLOCK_LEN ∧
        endsTerminal s = true from ⟨by have h1 := hs.1; omega, hs.2.2⟩)]
    rw [ih hrest (paras ++ [s])]
    simp

/-- C8 amended: the pipeline is idempotent on paragraph sequences whose
every paragraph (a) is reproduced exactly by `clean_and_filter_block`
under either `is_last` flag, (b) carries no list marker, and (c) has
600-900 non-space characters and ends in terminal punctuation.  On general
pipeline output idempotence FAILS (see the counterexample): a midpoint-cut
half can start with a lowercase letter and be filtered away on the second
pass. -/
theorem C8_amended (paras : List Txt)
    (hfix : ∀ p ∈ paras, clean_and_filter_block p true = [p] ∧
      clean_and_filter_block p false = [p])
    (hmark : ∀ p ∈ paras, markerRest p = none)
    (hlen : ∀ p ∈ paras, MIN_BLOCK_LEN ≤ nospaceLen p ∧
      nospaceLen p ≤ MAX_BLOCK_LEN ∧ endsTerminal p = true) :
    normalize_pipeline paras = paras := by
  unfold normalize_pipeline
  rw [section_sents_fix paras (fun p hp b => by
    cases b
    · exact (hfix p hp).2
    · exact (hfix p hp).1)]
  unfold handle_lists
  rw [handleGo_no_marker paras hmark []]
  simp only [List.nil_append]
  unfold split_paragraphs
  rw [split_paragraphs_go_id paras hlen []]
  simp

/-- A clean fixed-point paragraph: one long sentence of 602 non-space
characters ending in a period. -/
def pClean : Txt :=
  'Я' :: (List.replicate 300 [' ', 'а', 'б']).flatten ++ ['.']

set_option maxRecDepth 400000 in
/-- Witness for C8 amended: the pipeline leaves `[pClean]` unchanged. -/
theorem C8_witness :
    (∀ p ∈ [pClean], clean_and_filter_block p true = [p] ∧
      clean_and_filter_block p false = [p]) ∧
    (∀ p ∈ [pClean], markerRest p = none) ∧
    (∀ p ∈ [pClean], MIN_BLOCK_LEN ≤ nospaceLen p ∧
      nospaceLen p ≤ MAX_BLOCK_LEN ∧ endsTerminal p = true) ∧
    normalize_pipeline [pClean] = [pClean] :=
  ⟨by decide, by decide, by decide,
    C8_amended [pClean] (by decide) (by decide) (by decide)⟩

/-! ## Claim C9 -/

/-- C9: if any section, after trailing-paragraph trimming, keeps fewer
than `MIN_PARAGRAPH_COUNT` (2) paragraphs, `process_file` returns with no
output record written for the document. -/
theorem C9_reject (sections : List (List Txt))
    (h : ∃ blocks ∈ sections,
      (trim_trailing (normalize_pipeline blocks)).length <
        MIN_PARAGRAPH_COUNT) :
    process_sections sections = none := by
  induction sections with
  | nil =>
    rcases h with ⟨b, hb, _⟩
    cases hb
  | cons blocks rest ih =>
    rcases h with ⟨b, hb, hlen⟩
    simp only [process_sections]
    rcases List.mem_cons.mp hb with rfl | hb2
    · rw [if_pos hlen]
    · by_cases hfirst : (trim_trailing (normalize_pipeline blocks)).length <
          MIN_PARAGRAPH_COUNT
      · rw [if_pos hfirst]
      · rw [if_neg hfirst, ih ⟨b, hb2, hlen⟩]

set_option maxRecDepth 400000 in
/-- Witness for C9: a document whose only section cleans down to a single
short paragraph (trimmed away entirely) produces no output. -/
theorem C9_witness :
    (∃ blocks ∈ [[sSmall]],
      (trim_trailing (normalize_pipeline blocks)).length <
        MIN_PARAGRAPH_COUNT) ∧
    process_sections [[sSmall]] = none :=
  ⟨by decide, C9_reject [[sSmall]] (by decide)⟩
